import Mathlib

/-!
Shallow embedding of the object-store core of `src/main.rs` (a small git
implementation in Rust) together with proofs about its specification.

Byte sequences and Rust `String` values are modelled as `List Nat`
(bytes, respectively Unicode code points).  Fallible Rust functions
returning `Result<T, GitError>` are modelled as `Except GitError T`.
The filesystem is modelled as an explicit state (`FS`).
-/

deriving instance DecidableEq for Except

namespace RGit

/-- Code points of an ASCII Lean string literal, used for byte-string
constants appearing in the source. -/
def asciiB (s : String) : List Nat := s.data.map Char.toNat

/-- Fuel-indexed worker for `natDigits` (structural recursion on the
fuel so that the kernel can evaluate it; the fuel-exhausted branch is
only reached for `n < 10`, where it agrees with the recursion). -/
def natDigitsF : Nat → Nat → List Nat
  | 0, n => [48 + n % 10]
  | fuel + 1, n =>
    if n < 10 then [48 + n] else natDigitsF fuel (n / 10) ++ [48 + n % 10]

/-- Decimal ASCII digits of `n`; models Rust `usize::to_string`
(as used for the `<len>` field of the object header). -/
def natDigits (n : Nat) : List Nat := natDigitsF n n

/-- Models Rust `str::parse::<usize>` on a code-point sequence: an
optional leading `+`, then one or more ASCII digits, with the result
required to fit in 64 bits (`usize` overflow is a parse error). -/
def parseUsize (cs : List Nat) : Option Nat :=
  let ds := if cs.head? = some 43 then cs.tail else cs
  if ds = [] then none
  else if ds.all (fun c => decide (48 ≤ c ∧ c ≤ 57)) then
    let v := ds.foldl (fun a c => a * 10 + (c - 48)) 0
    if v < 18446744073709551616 then some v else none
  else none

/-- Lower-case hex digit for a value below 16 (models the `{:x}`
rendering used on the SHA-1 digest). -/
def hexDigit (n : Nat) : Nat := if n < 10 then 48 + n else 87 + n

/-- Models `hex::encode` / the `{:x}` formatting of a byte string. -/
def hexEncode : List Nat → List Nat
  | [] => []
  | b :: r => hexDigit (b / 16) :: hexDigit (b % 16) :: hexEncode r

/-- Value of one hex digit character (models `hex::decode` on a single
digit; the source only ever feeds it lower-case hex it produced itself). -/
def hexDigitVal (c : Nat) : Nat :=
  if c ≤ 57 then c - 48 else if c ≤ 70 then c - 55 else c - 87

/-- Models `hex::decode` on an even-length hex string. -/
def hexDecode : List Nat → List Nat
  | c1 :: c2 :: r => (hexDigitVal c1 * 16 + hexDigitVal c2) :: hexDecode r
  | _ => []

/-- The Unicode `White_Space` code points, i.e. Rust's
`char::is_whitespace` (used by `str::split_whitespace`). -/
def isUniWS (c : Nat) : Bool :=
  decide (c = 9 ∨ c = 10 ∨ c = 11 ∨ c = 12 ∨ c = 13 ∨ c = 32 ∨ c = 133 ∨
    c = 160 ∨ c = 5760 ∨ (8192 ≤ c ∧ c ≤ 8202) ∨ c = 8232 ∨ c = 8233 ∨
    c = 8239 ∨ c = 8287 ∨ c = 12288)

/-- Accumulator worker for `splitWS`; `cur` holds the current token
reversed. -/
def splitWSaux (cur : List Nat) : List Nat → List (List Nat)
  | [] => if cur = [] then [] else [cur.reverse]
  | c :: rest =>
    if isUniWS c then
      if cur = [] then splitWSaux [] rest else cur.reverse :: splitWSaux [] rest
    else splitWSaux (c :: cur) rest

/-- Models Rust `str::split_whitespace().collect()`: the maximal
non-whitespace runs of the code-point sequence. -/
def splitWS (l : List Nat) : List (List Nat) := splitWSaux [] l

/-- Models Rust `str::split_once(' ')`: split at the first space,
excluding the space itself. -/
def splitOnce32 (cs : List Nat) : Option (List Nat × List Nat) :=
  match cs.findIdx? (fun c => c == 32) with
  | none => none
  | some i => some (cs.take i, cs.drop (i + 1))

/-- Decode one scalar value from the front of a byte sequence (strict
UTF-8: rejects overlong forms, surrogates and code points above
`0x10FFFF`); returns the code point and the remaining bytes.  The
two-byte step. -/
def utf8Step2 (b : Nat) : List Nat → Option (Nat × List Nat)
  | b1 :: r =>
    if 128 ≤ b1 ∧ b1 < 192 then some ((b - 192) * 64 + (b1 - 128), r)
    else none
  | [] => none

/-- The three-byte step of the UTF-8 decoder (`0xE0` excludes overlong
forms, `0xED` excludes surrogates). -/
def utf8Step3 (b : Nat) : List Nat → Option (Nat × List Nat)
  | b1 :: b2 :: r =>
    if (if b = 224 then 160 else 128) ≤ b1 ∧ b1 < (if b = 237 then 160 else 192)
        ∧ 128 ≤ b2 ∧ b2 < 192 then
      some ((b - 224) * 4096 + (b1 - 128) * 64 + (b2 - 128), r)
    else none
  | _ => none

/-- The four-byte step of the UTF-8 decoder (`0xF0` excludes overlong
forms, `0xF4` caps at `0x10FFFF`). -/
def utf8Step4 (b : Nat) : List Nat → Option (Nat × List Nat)
  | b1 :: b2 :: b3 :: r =>
    if (if b = 240 then 144 else 128) ≤ b1 ∧ b1 < (if b = 244 then 144 else 192)
        ∧ 128 ≤ b2 ∧ b2 < 192 ∧ 128 ≤ b3 ∧ b3 < 192 then
      some ((b - 240) * 262144 + (b1 - 128) * 4096 + (b2 - 128) * 64
        + (b3 - 128), r)
    else none
  | _ => none

/-- One step of the UTF-8 decoder: classify the lead byte and consume
one encoded scalar value. -/
def utf8Step : List Nat → Option (Nat × List Nat)
  | [] => none
  | b :: rest =>
    if b < 128 then some (b, rest)
    else if b < 194 then none
    else if b < 224 then utf8Step2 b rest
    else if b < 240 then utf8Step3 b rest
    else if b < 245 then utf8Step4 b rest
    else none

/-- Fuel-indexed worker for `utf8Decode`; each step consumes at least
one byte, so a fuel of the input length suffices. -/
def utf8DecodeF : Nat → List Nat → Option (List Nat)
  | _, [] => some []
  | 0, _ :: _ => none
  | fuel + 1, b :: rest =>
    match utf8Step (b :: rest) with
    | none => none
    | some (cp, r) => (utf8DecodeF fuel r).map (cp :: ·)

/-- Models Rust `String::from_utf8` (strict UTF-8 validation), returning
the decoded code points. -/
def utf8Decode (l : List Nat) : Option (List Nat) := utf8DecodeF l.length l

/-- Byte-wise lexicographic `≤` on byte strings: Rust's `Ord` on
`String`/`[u8]` as used by `sort_by(|a, b| a[1].cmp(&b[1]))`. -/
def lexLeb : List Nat → List Nat → Bool
  | [], _ => true
  | _ :: _, [] => false
  | x :: xs, y :: ys => if x < y then true else if y < x then false else lexLeb xs ys

/-! ### SHA-1

Modelled from the spec: the `sha1` crate used by `GitRepo::hash_object` is
an external dependency; the spec fixes it as "a 160-bit hash such as the
one historically used by this class of store", i.e. SHA-1, implemented
here in full over `Nat` arithmetic (all words reduced modulo `2^32`). -/

/-- Truncation to a 32-bit word. -/
def w32 (x : Nat) : Nat := x % 4294967296

/-- Left rotation of a 32-bit word by `k` bits. -/
def rotl (k x : Nat) : Nat := (x * 2 ^ k) % 4294967296 + x / 2 ^ (32 - k)

/-- Big-endian bytes of a 32-bit word. -/
def wordToBytes (w : Nat) : List Nat :=
  [w / 16777216 % 256, w / 65536 % 256, w / 256 % 256, w % 256]

/-- Big-endian bytes of a 64-bit word (the SHA-1 bit-length field). -/
def word64ToBytes (w : Nat) : List Nat :=
  [w / 72057594037927936 % 256, w / 281474976710656 % 256,
   w / 1099511627776 % 256, w / 4294967296 % 256,
   w / 16777216 % 256, w / 65536 % 256, w / 256 % 256, w % 256]

/-- SHA-1 padding: `0x80`, zeros to 56 mod 64, then the 64-bit
big-endian bit length. -/
def sha1Pad (msg : List Nat) : List Nat :=
  msg ++ 128 :: List.replicate ((119 - msg.length % 64) % 64) 0
    ++ word64ToBytes (msg.length * 8)

/-- Fuel-indexed worker splitting a padded message into 64-byte chunks
(each step consumes at least one byte). -/
def sha1ChunksF : Nat → List Nat → List (List Nat)
  | _, [] => []
  | 0, _ :: _ => []
  | fuel + 1, b :: tl =>
    (b :: tl).take 64 :: sha1ChunksF fuel ((b :: tl).drop 64)

/-- Split a padded message into 64-byte chunks. -/
def sha1Chunks (l : List Nat) : List (List Nat) := sha1ChunksF l.length l

/-- Big-endian 32-bit words of a chunk. -/
def bytesToW32s : List Nat → List Nat
  | b0 :: b1 :: b2 :: b3 :: r =>
    (b0 * 16777216 + b1 * 65536 + b2 * 256 + b3) % 4294967296 :: bytesToW32s r
  | _ => []

/-- Fuel-indexed worker extending the schedule words to 80 (a fuel of
80 always suffices since every step appends one word). -/
def sha1SchedF : Nat → List Nat → List Nat
  | 0, w => w
  | fuel + 1, w =>
    if w.length < 80 then
      sha1SchedF fuel (w ++ [rotl 1 (w.getD (w.length - 3) 0 ^^^ w.getD (w.length - 8) 0
        ^^^ w.getD (w.length - 14) 0 ^^^ w.getD (w.length - 16) 0)])
    else w

/-- Extend the 16 schedule words to 80. -/
def sha1Sched (w : List Nat) : List Nat := sha1SchedF 80 w

/-- One SHA-1 round. -/
def sha1Step (i wi : Nat) (st : Nat × Nat × Nat × Nat × Nat) :
    Nat × Nat × Nat × Nat × Nat :=
  let (a, b, c, d, e) := st
  let f :=
    if i < 20 then (b &&& c) ||| ((4294967295 ^^^ b) &&& d)
    else if i < 40 then b ^^^ c ^^^ d
    else if i < 60 then (b &&& c) ||| (b &&& d) ||| (c &&& d)
    else b ^^^ c ^^^ d
  let k :=
    if i < 20 then 1518500249
    else if i < 40 then 1859775393
    else if i < 60 then 2400959708
    else 3395469782
  (w32 (rotl 5 a + f + e + k + wi), a, rotl 30 b, c, d)

/-- Run the 80 rounds over the schedule words starting at round `i`. -/
def sha1Rounds : List Nat → Nat → Nat × Nat × Nat × Nat × Nat →
    Nat × Nat × Nat × Nat × Nat
  | [], _, st => st
  | wi :: ws, i, st => sha1Rounds ws (i + 1) (sha1Step i wi st)

/-- Process one 64-byte chunk. -/
def sha1Process (h : Nat × Nat × Nat × Nat × Nat) (chunk : List Nat) :
    Nat × Nat × Nat × Nat × Nat :=
  let (a, b, c, d, e) := sha1Rounds (sha1Sched (bytesToW32s chunk)) 0 h
  let (h0, h1, h2, h3, h4) := h
  (w32 (h0 + a), w32 (h1 + b), w32 (h2 + c), w32 (h3 + d), w32 (h4 + e))

/-- The SHA-1 digest (20 bytes) of a byte sequence. -/
def sha1 (msg : List Nat) : List Nat :=
  let st := (sha1Chunks (sha1Pad msg)).foldl sha1Process
    (1732584193, 4023233417, 2562383102, 271733878, 3285377520)
  wordToBytes st.1 ++ wordToBytes st.2.1 ++ wordToBytes st.2.2.1
    ++ wordToBytes st.2.2.2.1 ++ wordToBytes st.2.2.2.2

/-! ### Compression Adapter

Modelled from the spec: the `flate2` zlib encoder/decoder used by
`GitRepo::compress_content` / `GitRepo::decompress_object` is an external
dependency; the spec fixes it as "a standard deflate-family stream
format" forming an exact round-trip.  It is modelled here as a zlib
stream made of stored (uncompressed) deflate blocks followed by the
Adler-32 checksum of the data. -/

/-- Adler-32 checksum of a byte sequence. -/
def adler32 (data : List Nat) : Nat :=
  let p := data.foldl
    (fun (p : Nat × Nat) x => ((p.1 + x) % 65521, (p.2 + p.1 + x) % 65521))
    (1, 0)
  p.2 * 65536 + p.1

/-- Fuel-indexed worker for `storedBlocks`; the fuel-exhausted branch
emits a single final block, which is correct whenever at most 65535
bytes remain. -/
def storedBlocksF : Nat → List Nat → List Nat
  | 0, data =>
    1 :: data.length % 256 :: data.length / 256
      :: (65535 - data.length) % 256 :: (65535 - data.length) / 256 :: data
  | fuel + 1, data =>
    if data.length ≤ 65535 then
      1 :: data.length % 256 :: data.length / 256
        :: (65535 - data.length) % 256 :: (65535 - data.length) / 256 :: data
    else
      0 :: 255 :: 255 :: 0 :: 0
        :: (data.take 65535 ++ storedBlocksF fuel (data.drop 65535))

/-- The deflate stored-block encoding of a byte sequence: blocks of at
most 65535 bytes, each carrying a final-block flag, its little-endian
16-bit length and the length's one's complement. -/
def storedBlocks (data : List Nat) : List Nat := storedBlocksF data.length data

/-- Models `GitRepo::compress_content` (zlib header, stored deflate
blocks, Adler-32 trailer); it cannot fail. -/
def compressContent (byteSequence : List Nat) : List Nat :=
  120 :: 1 :: storedBlocks byteSequence ++ wordToBytes (adler32 byteSequence)

/-- Fuel-indexed worker for `parseBlocks`; each step consumes at least
five bytes, so a fuel exceeding the input length suffices. -/
def parseBlocksF : Nat → List Nat → Option (List Nat × List Nat)
  | 0, _ => none
  | fuel + 1, s =>
    match s with
    | bf :: l0 :: l1 :: n0 :: n1 :: rest =>
      if l0 + 256 * l1 + (n0 + 256 * n1) = 65535 then
        if rest.length < l0 + 256 * l1 then none
        else
          let dat := rest.take (l0 + 256 * l1)
          let rest2 := rest.drop (l0 + 256 * l1)
          if bf = 1 then some (dat, rest2)
          else if bf = 0 then
            match parseBlocksF fuel rest2 with
            | some (d2, r2) => some (dat ++ d2, r2)
            | none => none
          else none
      else none
    | _ => none

/-- Parse a sequence of stored deflate blocks, returning the data and
the remaining (trailer) bytes. -/
def parseBlocks (s : List Nat) : Option (List Nat × List Nat) :=
  parseBlocksF (s.length + 1) s

/-! ### Errors and objects (`GitError`, `GitObject`) -/

/-- The `std::io::ErrorKind` values relevant to the modelled filesystem
and decompression operations. -/
inductive IOErrorKind where
  | notFound
  | alreadyExists
  | invalidData
deriving DecidableEq

/-- The `GitError` enum of the source (`Io`, `OType`, `Utf8`, `Parse`,
`InvalidHash`); `Parse` and `InvalidHash` carry their message string,
`OType` the offending type token. -/
inductive GitError where
  | io (k : IOErrorKind)
  | otype (t : List Nat)
  | utf8
  | parse (msg : String)
  | invalidHash (msg : String)
deriving DecidableEq

/-- The `GitObject` struct: `type_` is the parsed kind token, `content`
the code points of the `content` string field, `size` the parsed header
length. -/
structure GitObject where
  type_ : List Nat
  content : List Nat
  size : Nat
deriving DecidableEq

/-- Models `GitRepo::decompress_object` over the modelled zlib stream:
check the two-byte zlib header, parse the stored blocks, check the
Adler-32 trailer; any malformed stream is an `Io` error
(`InvalidData`), as `flate2` reports corrupt input via `io::Error`. -/
def decompressObject (data : List Nat) : Except GitError (List Nat) :=
  match data with
  | h1 :: h2 :: rest =>
    if h1 = 120 ∧ h2 = 1 then
      match parseBlocks rest with
      | none => .error (.io .invalidData)
      | some (dat, trailer) =>
        if trailer = wordToBytes (adler32 dat) then .ok dat
        else .error (.io .invalidData)
    else .error (.io .invalidData)
  | _ => .error (.io .invalidData)

/-- Fuel-indexed worker for `readTree`; each loop iteration consumes at
least 21 bytes, so a fuel of the data length suffices. -/
def readTreeF : Nat → List Nat → Except GitError (List (List Nat))
  | _, [] => .ok []
  | 0, _ :: _ => .error (.parse "Invalid object format")
  | fuel + 1, b :: tl =>
    match (b :: tl).findIdx? (fun x => x == 0) with
    | none => .error (.parse "Invalid object format")
    | some nullPos =>
      match utf8Decode ((b :: tl).take nullPos) with
      | none => .error .utf8
      | some modeAndName =>
        match splitOnce32 modeAndName with
        | none => .error (.parse "Invalid ojbectf format")
        | some (_mode, name) =>
          let rest := (b :: tl).drop (nullPos + 1)
          if rest.length < 20 then .error (.parse "Incomplete SHA")
          else
            match readTreeF fuel (rest.drop 20) with
            | .error e => .error e
            | .ok names => .ok (name :: names)

/-- Models `read_tree_object`'s scan loop, returning the entry names.
The source iterates with an absolute `position` index over `data`; this
is rendered as recursion on the unscanned suffix. -/
def readTree (data : List Nat) : Except GitError (List (List Nat)) :=
  readTreeF data.length data

/-- Models `entries.join("\n")`. -/
def joinNL : List (List Nat) → List Nat
  | [] => []
  | [n] => n
  | n :: rest => n ++ 10 :: joinNL rest

/-- Models `read_tree_object` itself (names joined by newlines). -/
def readTreeObject (data : List Nat) : Except GitError (List Nat) :=
  (readTree data).map joinNL

/-- The header-parsing part of `GitObject::from_raw` (lines 71-85):
locate the first NUL, decode the header as UTF-8, require exactly two
whitespace-separated tokens, parse the length token; returns
`(type_, size, content)`. -/
def parseHeader (rawBytes : List Nat) : Except GitError (List Nat × Nat × List Nat) :=
  match rawBytes.findIdx? (fun b => b == 0) with
  | none => .error (.parse "Invalid object format")
  | some nullPos =>
    match utf8Decode (rawBytes.take nullPos) with
    | none => .error .utf8
    | some header =>
      match splitWS header with
      | [t0, t1] =>
        match parseUsize t1 with
        | none => .error (.parse "Invalid Size")
        | some size => .ok (t0, size, rawBytes.drop (nullPos + 1))
      | _ => .error (.parse "Invalid header format")

/-- Models `GitObject::from_raw`: parse the header, then build the
object according to the kind token (`blob` decodes the content as UTF-8,
`tree` runs `read_tree_object`, anything else is an `OType` error). -/
def fromRaw (rawBytes : List Nat) : Except GitError GitObject :=
  match parseHeader rawBytes with
  | .error e => .error e
  | .ok (type_, size, content) =>
    if type_ = asciiB "blob" then
      match utf8Decode content with
      | none => .error .utf8
      | some s => .ok ⟨type_, s, size⟩
    else if type_ = asciiB "tree" then
      match readTreeObject content with
      | .error e => .error e
      | .ok s => .ok ⟨type_, s, size⟩
    else .error (.otype type_)

/-! ### Filesystem model and `GitRepo` operations

Paths are lists of components (byte strings); the repository root is the
constant `".git"` of `GitRepo::new`.  `dirs` holds the existing
directories, `files` the written files (later writes shadow earlier
ones, lookup takes the first match). -/

/-- A filesystem path, as a list of name components. -/
abbrev Path := List (List Nat)

/-- The filesystem state: existing directories and written files. -/
structure FS where
  dirs : List Path
  files : List (Path × List Nat)
deriving DecidableEq

/-- The current working directory (path `[]`) always exists. -/
def dirExists (fs : FS) (p : Path) : Prop :=
  p = [] ∨ p ∈ fs.dirs

instance (fs : FS) (p : Path) : Decidable (dirExists fs p) := by
  unfold dirExists; infer_instance

/-- Models `std::fs::create_dir`: fails with `AlreadyExists` if the
directory exists and with `NotFound` if its parent does not. -/
def fsCreateDir (fs : FS) (p : Path) : Except GitError FS :=
  if p ∈ fs.dirs then .error (.io .alreadyExists)
  else if dirExists fs p.dropLast then .ok { fs with dirs := p :: fs.dirs }
  else .error (.io .notFound)

/-- Models `std::fs::write`: fails with `NotFound` if the parent
directory does not exist, otherwise creates or overwrites the file. -/
def fsWrite (fs : FS) (p : Path) (data : List Nat) : Except GitError FS :=
  if dirExists fs p.dropLast then .ok { fs with files := (p, data) :: fs.files }
  else .error (.io .notFound)

/-- Models `std::fs::read`: fails with `NotFound` if the file does not
exist. -/
def fsRead (fs : FS) (p : Path) : Except GitError (List Nat) :=
  match fs.files.find? (fun q => q.1 == p) with
  | some q => .ok q.2
  | none => .error (.io .notFound)

/-- `".git"`, the fixed repository root of `GitRepo::new`. -/
def gitD : List Nat := asciiB ".git"

/-- The `objects` path component. -/
def objectsD : List Nat := asciiB "objects"

/-- The `refs` path component. -/
def refsD : List Nat := asciiB "refs"

/-- The `HEAD` path component. -/
def headD : List Nat := asciiB "HEAD"

/-- Models `GitRepo::init`.  The source calls `.unwrap()` on every
filesystem operation, so any failure aborts the process (a panic) rather
than surfacing as a `GitError`; a panic is modelled as `none`. -/
def init (fs : FS) : Option FS :=
  match fsCreateDir fs [gitD] with
  | .error _ => none
  | .ok fs1 =>
    match fsCreateDir fs1 [gitD, objectsD] with
    | .error _ => none
    | .ok fs2 =>
      match fsCreateDir fs2 [gitD, refsD] with
      | .error _ => none
      | .ok fs3 =>
        match fsWrite fs3 [gitD, headD] (asciiB "ref: refs/heads/main\n") with
        | .error _ => none
        | .ok fs4 => some fs4

/-- Models `GitRepo::read_object`: reject digests shorter than 2
characters, split the digest into directory and file name, read,
decompress-and-decode. -/
def readObject (fs : FS) (hash : List Nat) : Except GitError GitObject :=
  if hash.length < 2 then .error (.invalidHash "Hash too short")
  else
    match fsRead fs [gitD, objectsD, hash.take 2, hash.drop 2] with
    | .error e => .error e
    | .ok compressedData =>
      match decompressObject compressedData with
      | .error e => .error e
      | .ok decompressed => fromRaw decompressed

/-- The byte sequence fed to the SHA-1 hasher by `GitRepo::hash_object`
(lines 151-155): kind token, a space, the decimal payload length, a NUL,
the payload. -/
def hashInput (objectByteSequence objectType : List Nat) : List Nat :=
  objectType ++ [32] ++ natDigits objectByteSequence.length ++ [0]
    ++ objectByteSequence

/-- Models `GitRepo::hash_object`: the SHA-1 digest of `hashInput`,
rendered in lower-case hex (`format!("{:x}", ..)`). -/
def hashObject (objectByteSequence objectType : List Nat) : List Nat :=
  hexEncode (sha1 (hashInput objectByteSequence objectType))

/-- Models `GitRepo::write_object`: compress, then `create_dir` the
two-hex-prefix subdirectory (note: `?`-propagated, so an existing
subdirectory is an error), then write the object file. -/
def writeObject (fs : FS) (hash : List Nat) (byteSequence : List Nat) :
    Except GitError FS :=
  let compressed := compressContent byteSequence
  match fsCreateDir fs [gitD, objectsD, hash.take 2] with
  | .error e => .error e
  | .ok fs1 => fsWrite fs1 [gitD, objectsD, hash.take 2, hash.drop 2] compressed

/-- The canonical object encoding `<kind> <len>\0<payload>` as built at
the `write_object` call sites (`run_command`'s hash-object branch, lines
319-325, and `write_tree`, lines 203-209 and 231-237). -/
def encodeObj (kind payload : List Nat) : List Nat :=
  kind ++ [32] ++ natDigits payload.length ++ [0] ++ payload

/-- The spec's `write(kind, payload) -> digest` operation as composed by
the callers of `write_object`: hash the payload, build the canonical
encoding, persist it, return the new state and the digest. -/
def writeKindPayload (fs : FS) (kind payload : List Nat) :
    Except GitError (FS × List Nat) :=
  let hash := hashObject payload kind
  match writeObject fs hash (encodeObj kind payload) with
  | .error e => .error e
  | .ok fs1 => .ok (fs1, hash)

/-! ### Tree Builder (`GitRepo::write_tree`)

A directory entry as enumerated by `fs::read_dir` is a name, a
permission word and either file contents or children.  The permission
field exists on the real filesystem but is never consulted by
`write_tree` (`path.is_dir()` / `path.is_file()` are type tests), which
is why it appears here only to be ignored.  `write_tree`'s digest
computation (entry collection, sorting, tree encoding, hashing) is
embedded as the pure functions below; its store writes go through
`writeObject` and are analysed separately. -/

/-- A filesystem directory entry as seen by `write_tree`. -/
inductive FSEntry where
  | file (name : List Nat) (perm : Nat) (content : List Nat)
  | dir (name : List Nat) (perm : Nat) (children : List FSEntry)

/-- A tree entry as pushed by `write_tree`: mode token, file name and
the hex digest of the child object. -/
abbrev TreeEntry := List Nat × List Nat × List Nat

/-- `tree_entries.sort_by(|a, b| a[1].cmp(&b[1]))`: the comparison used
is byte-wise lexicographic order on the entry names. -/
def entryLe (a b : TreeEntry) : Prop := lexLeb a.2.1 b.2.1 = true

instance : DecidableRel entryLe := fun a b => by
  unfold entryLe; infer_instance

/-- The stable sort of the entry vector (Rust `sort_by`). -/
def sortEntries (l : List TreeEntry) : List TreeEntry :=
  List.insertionSort entryLe l

/-- `tree_entries_bytes` (lines 215-228): for each entry in order,
`<mode> <name>\0` followed by the 20 raw digest bytes
(`hex::decode` of the stored hex digest). -/
def treeEntriesBytes : List TreeEntry → List Nat
  | [] => []
  | e :: rest => e.1 ++ [32] ++ e.2.1 ++ [0] ++ hexDecode e.2.2
    ++ treeEntriesBytes rest

mutual

/-- Fuel-indexed form of the entry construction of `write_tree`
(structural recursion on fuel so the kernel can evaluate it; under
`entryFuelOK` the fuel-exhausted directory branch is unreachable and the
value is fuel-independent). -/
def childEntryF : Nat → FSEntry → Option TreeEntry
  | _, .file name _perm content =>
    if name = asciiB ".git" then none
    else some (asciiB "100644", name, hashObject content (asciiB "blob"))
  | 0, .dir name _perm _ =>
    if name = asciiB ".git" then none
    else some (asciiB "40000", name,
      hashObject (treeEntriesBytes (sortEntries [])) (asciiB "tree"))
  | fuel + 1, .dir name _perm children =>
    if name = asciiB ".git" then none
    else some (asciiB "40000", name,
      hashObject (treeEntriesBytes (sortEntries (collectEntriesF fuel children)))
        (asciiB "tree"))

/-- Fuel-indexed worker for `collectEntries`. -/
def collectEntriesF : Nat → List FSEntry → List TreeEntry
  | _, [] => []
  | 0, _ :: _ => []
  | fuel + 1, e :: rest =>
    match childEntryF fuel e with
    | none => collectEntriesF fuel rest
    | some ent => ent :: collectEntriesF fuel rest

end

mutual

/-- Whether `fuel` is enough for `childEntryF` to fully traverse the
entry (so that the fuel-exhausted branch is never taken and the value is
fuel-independent). -/
def entryFuelOK : Nat → FSEntry → Bool
  | _, .file _ _ _ => true
  | 0, .dir _ _ _ => false
  | fuel + 1, .dir _ _ children => listFuelOK fuel children

/-- Whether `fuel` is enough for `collectEntriesF` on the list. -/
def listFuelOK : Nat → List FSEntry → Bool
  | _, [] => true
  | 0, _ :: _ => false
  | fuel + 1, e :: rest => entryFuelOK fuel e && listFuelOK fuel rest

end

/-- The digest returned by `write_tree` for a directory with the given
children: sort the entries by name, encode, hash as a `tree` object
(fuel-indexed like the workers above; any `fuel` with
`listFuelOK fuel children` gives the value of the source recursion). -/
def writeTreeHashF (fuel : Nat) (children : List FSEntry) : List Nat :=
  hashObject (treeEntriesBytes (sortEntries (collectEntriesF fuel children)))
    (asciiB "tree")

/-- A convenient already-initialized store state (root and `objects`
directory present, no objects yet), used for concrete instantiations. -/
def freshStore : FS := ⟨[[gitD], [gitD, objectsD]], []⟩

/-! ## Lemmas -/

theorem findIdx?_zero_append (l1 l2 : List Nat) (h : ∀ x ∈ l1, x ≠ 0) :
    List.findIdx? (fun b => b == 0) (l1 ++ 0 :: l2) = some l1.length := by
  induction l1 with
  | nil => simp [List.findIdx?_cons]
  | cons a t ih =>
    have ha : a ≠ 0 := h a (by simp)
    simp only [List.cons_append, List.findIdx?_cons]
    rw [if_neg (by simpa using ha)]
    rw [List.findIdx?_succ, ih (fun x hx => h x (by simp [hx]))]
    simp

theorem drop_append_cons (l1 l2 : List Nat) (a : Nat) :
    (l1 ++ a :: l2).drop (l1.length + 1) = l2 := by
  have : l1 ++ a :: l2 = (l1 ++ [a]) ++ l2 := by simp
  rw [this]
  have hl : l1.length + 1 = (l1 ++ [a]).length := by simp
  rw [hl, List.drop_left]

theorem utf8DecodeF_ascii : ∀ fuel (l : List Nat), l.length ≤ fuel →
    (∀ b ∈ l, b < 128) → utf8DecodeF fuel l = some l := by
  intro fuel
  induction fuel with
  | zero =>
    intro l hl _
    cases l with
    | nil => rfl
    | cons a t => simp at hl
  | succ fuel ih =>
    intro l hl h
    cases l with
    | nil => rfl
    | cons a t =>
      have ha : a < 128 := h a (by simp)
      have hstep : utf8Step (a :: t) = some (a, t) := by
        rw [utf8Step, if_pos ha]
      have hrec := ih t (by simp at hl; omega) (fun b hb => h b (by simp [hb]))
      rw [utf8DecodeF, hstep]
      simp [hrec]

theorem utf8Decode_ascii (l : List Nat) (h : ∀ b ∈ l, b < 128) :
    utf8Decode l = some l :=
  utf8DecodeF_ascii l.length l (Nat.le_refl _) h

theorem natDigitsF_mem : ∀ fuel n c, c ∈ natDigitsF fuel n → 48 ≤ c ∧ c ≤ 57 := by
  intro fuel
  induction fuel with
  | zero => intro n c hc; rw [natDigitsF] at hc; simp at hc; omega
  | succ fuel ih =>
    intro n c hc
    rw [natDigitsF] at hc
    by_cases h : n < 10
    · rw [if_pos h] at hc; simp at hc; omega
    · rw [if_neg h] at hc
      rcases List.mem_append.mp hc with h1 | h2
      · exact ih _ c h1
      · simp at h2; omega

theorem natDigits_mem (n : Nat) : ∀ c ∈ natDigits n, 48 ≤ c ∧ c ≤ 57 :=
  fun c hc => natDigitsF_mem n n c hc

theorem natDigitsF_ne_nil (fuel n : Nat) : natDigitsF fuel n ≠ [] := by
  cases fuel with
  | zero => rw [natDigitsF]; simp
  | succ fuel =>
    rw [natDigitsF]
    split
    · simp
    · simp

theorem natDigits_ne_nil (n : Nat) : natDigits n ≠ [] := natDigitsF_ne_nil n n

theorem natDigitsF_foldl : ∀ fuel n a, n < 10 ^ (fuel + 1) →
    (natDigitsF fuel n).foldl (fun x c => x * 10 + (c - 48)) a =
      a * 10 ^ (natDigitsF fuel n).length + n := by
  intro fuel
  induction fuel with
  | zero =>
    intro n a hn
    rw [natDigitsF]
    simp only [List.foldl_cons, List.foldl_nil, List.length_cons,
      List.length_nil, pow_succ, pow_zero, Nat.add_sub_cancel_left]
    have hn10 : n < 10 := by simpa using hn
    omega
  | succ fuel ih =>
    intro n a hn
    rw [natDigitsF]
    by_cases h : n < 10
    · rw [if_pos h]
      simp only [List.foldl_cons, List.foldl_nil, List.length_cons,
        List.length_nil, pow_succ, pow_zero, Nat.add_sub_cancel_left]
      omega
    · rw [if_neg h]
      have hdiv : n / 10 < 10 ^ (fuel + 1) := by
        have hp : (10 : Nat) ^ (fuel + 1 + 1) = 10 ^ (fuel + 1) * 10 := by
          rw [pow_succ]
        rw [hp] at hn
        omega
      rw [List.foldl_append, ih (n / 10) a hdiv]
      simp only [List.foldl_cons, List.foldl_nil, List.length_append,
        List.length_cons, List.length_nil, Nat.add_sub_cancel_left]
      rw [pow_succ, Nat.add_mul, Nat.mul_assoc, Nat.add_assoc]
      congr 1
      omega

theorem natDigits_foldl (n : Nat) (a : Nat) :
    (natDigits n).foldl (fun x c => x * 10 + (c - 48)) a =
      a * 10 ^ (natDigits n).length + n := by
  unfold natDigits
  refine natDigitsF_foldl n n a ?_
  calc n < 10 ^ n := Nat.lt_pow_self (by omega) n
    _ ≤ 10 ^ (n + 1) := Nat.pow_le_pow_right (by omega) (by omega)

theorem parseUsize_natDigits (n : Nat) (h : n < 18446744073709551616) :
    parseUsize (natDigits n) = some n := by
  have hmem := natDigits_mem n
  have hne := natDigits_ne_nil n
  unfold parseUsize
  have hds : ((natDigits n).head? = some 43) = False := by
    simp only [eq_iff_iff, iff_false]
    intro hh
    have : 43 ∈ natDigits n := by
      cases hd : natDigits n with
      | nil => rw [hd] at hh; simp at hh
      | cons c rest =>
        rw [hd] at hh
        simp at hh
        simp [hh]
    have := hmem 43 this
    omega
  simp only [hds, if_false]
  rw [if_neg hne]
  have hall : (natDigits n).all (fun c => decide (48 ≤ c ∧ c ≤ 57)) = true := by
    rw [List.all_eq_true]
    intro c hc
    exact decide_eq_true (hmem c hc)
  rw [if_pos hall]
  have hv : (natDigits n).foldl (fun a c => a * 10 + (c - 48)) 0 = n := by
    rw [natDigits_foldl]; simp
  simp only [hv]
  rw [if_pos h]

theorem digit_not_ws (c : Nat) (h1 : 48 ≤ c) (h2 : c ≤ 57) :
    isUniWS c = false := by
  simp only [isUniWS, decide_eq_false_iff_not]
  omega

theorem splitWSaux_token (t : List Nat) (hw : ∀ c ∈ t, isUniWS c = false) :
    ∀ cur l, splitWSaux cur (t ++ l) = splitWSaux (t.reverse ++ cur) l := by
  induction t with
  | nil => intro cur l; simp
  | cons c t' ih =>
    intro cur l
    have hc : isUniWS c = false := hw c (by simp)
    simp only [List.cons_append, splitWSaux, hc, Bool.false_eq_true, if_false,
      List.append_eq]
    rw [ih (fun x hx => hw x (by simp [hx])) (c :: cur) l]
    simp

theorem splitWS_two (t1 t2 : List Nat) (h1 : t1 ≠ []) (h2 : t2 ≠ [])
    (hw1 : ∀ c ∈ t1, isUniWS c = false) (hw2 : ∀ c ∈ t2, isUniWS c = false) :
    splitWS (t1 ++ 32 :: t2) = [t1, t2] := by
  have hws : isUniWS 32 = true := by decide
  have htok2 : splitWSaux [] t2 = [t2] := by
    have h := splitWSaux_token t2 hw2 [] []
    simp only [List.append_nil] at h
    rw [h]
    simp only [splitWSaux]
    simp [h2]
  unfold splitWS
  have h := splitWSaux_token t1 hw1 [] (32 :: t2)
  simp only [List.append_nil] at h
  rw [h]
  simp only [splitWSaux, hws, if_true]
  rw [if_neg (by simp [h1])]
  rw [htok2, List.reverse_reverse]

theorem sha1_length (m : List Nat) : (sha1 m).length = 20 := by
  simp [sha1, wordToBytes]

theorem sha1_mem_lt (m : List Nat) : ∀ b ∈ sha1 m, b < 256 := by
  intro b hb
  simp [sha1, wordToBytes] at hb
  omega

theorem hexEncode_length (bs : List Nat) : (hexEncode bs).length = 2 * bs.length := by
  induction bs with
  | nil => rfl
  | cons b t ih => simp [hexEncode, ih]; omega

theorem hexDigit_spec (n : Nat) (h : n < 16) :
    (48 ≤ hexDigit n ∧ hexDigit n ≤ 57) ∨ (97 ≤ hexDigit n ∧ hexDigit n ≤ 102) := by
  by_cases h' : n < 10 <;> simp [hexDigit, h'] <;> omega

theorem hexEncode_all (bs : List Nat) (h : ∀ b ∈ bs, b < 256) :
    ∀ c ∈ hexEncode bs, (48 ≤ c ∧ c ≤ 57) ∨ (97 ≤ c ∧ c ≤ 102) := by
  induction bs with
  | nil => simp [hexEncode]
  | cons b t ih =>
    intro c hc
    have hb : b < 256 := h b (by simp)
    simp only [hexEncode, List.mem_cons] at hc
    rcases hc with rfl | rfl | hc
    · exact hexDigit_spec _ (by omega)
    · exact hexDigit_spec _ (by omega)
    · exact ih (fun x hx => h x (by simp [hx])) c hc

theorem hexDigitVal_hexDigit (n : Nat) (h : n < 16) :
    hexDigitVal (hexDigit n) = n := by
  rcases Nat.lt_or_ge n 10 with h' | h'
  · rw [hexDigit, if_pos h']
    rw [hexDigitVal, if_pos (by omega)]
    omega
  · rw [hexDigit, if_neg (by omega)]
    rw [hexDigitVal, if_neg (by omega), if_neg (by omega)]
    omega

theorem hexDecode_hexEncode (bs : List Nat) (h : ∀ b ∈ bs, b < 256) :
    hexDecode (hexEncode bs) = bs := by
  induction bs with
  | nil => rfl
  | cons b t ih =>
    have hb : b < 256 := h b (by simp)
    simp only [hexEncode, hexDecode]
    rw [hexDigitVal_hexDigit _ (by omega), hexDigitVal_hexDigit _ (by omega)]
    rw [ih (fun x hx => h x (by simp [hx]))]
    congr 1
    omega

theorem parseBlocksF_final (d extra : List Nat) (hd : d.length ≤ 65535)
    (fuelP : Nat) :
    parseBlocksF (fuelP + 1)
      (1 :: d.length % 256 :: d.length / 256 :: (65535 - d.length) % 256
        :: (65535 - d.length) / 256 :: (d ++ extra)) = some (d, extra) := by
  rw [parseBlocksF]
  rw [if_pos (by omega)]
  have hlen2 : ¬ (d ++ extra).length < d.length % 256 + 256 * (d.length / 256) := by
    simp [List.length_append]; omega
  rw [if_neg hlen2]
  have hL : d.length % 256 + 256 * (d.length / 256) = d.length := by omega
  rw [hL]
  simp [List.take_left, List.drop_left]

theorem parseBlocksF_storedBlocksF :
    ∀ fuelS (d : List Nat), d.length ≤ (fuelS + 1) * 65535 →
    ∀ (extra : List Nat) fuelP,
      (storedBlocksF fuelS d ++ extra).length < fuelP →
      parseBlocksF fuelP (storedBlocksF fuelS d ++ extra) = some (d, extra) := by
  intro fuelS
  induction fuelS with
  | zero =>
    intro d hd extra fuelP hlen
    rw [storedBlocksF] at hlen ⊢
    simp only [List.cons_append] at hlen ⊢
    cases fuelP with
    | zero => simp at hlen
    | succ f => exact parseBlocksF_final d extra (by omega) f
  | succ fuelS ih =>
    intro d hd extra fuelP hlen
    rw [storedBlocksF] at hlen ⊢
    by_cases hsmall : d.length ≤ 65535
    · rw [if_pos hsmall] at hlen ⊢
      simp only [List.cons_append] at hlen ⊢
      cases fuelP with
      | zero => simp at hlen
      | succ f => exact parseBlocksF_final d extra hsmall f
    · rw [if_neg hsmall] at hlen ⊢
      simp only [List.cons_append, List.append_assoc] at hlen ⊢
      cases fuelP with
      | zero => simp at hlen
      | succ f =>
        rw [parseBlocksF]
        rw [if_pos (by omega)]
        have htk : (d.take 65535).length = 65535 := by
          rw [List.length_take]; omega
        have hlen2 : ¬ (d.take 65535 ++ (storedBlocksF fuelS (d.drop 65535) ++ extra)).length
            < 255 + 256 * 255 := by
          simp [List.length_append]; omega
        rw [if_neg hlen2]
        have h65 : (255 + 256 * 255 : Nat) = 65535 := by omega
        rw [h65]
        rw [List.take_left' htk, List.drop_left' htk]
        rw [if_neg (by omega), if_pos rfl]
        have hdrop : (d.drop 65535).length ≤ (fuelS + 1) * 65535 := by
          simp only [List.length_drop]
          omega
        have hfuel : (storedBlocksF fuelS (d.drop 65535) ++ extra).length < f := by
          simp only [List.length_append] at hlen ⊢
          simp only [List.length_cons, List.length_append, htk] at hlen
          omega
        rw [ih (d.drop 65535) hdrop extra f hfuel]
        simp [List.take_append_drop]

theorem parseBlocks_storedBlocks (d : List Nat) :
    ∀ extra, parseBlocks (storedBlocks d ++ extra) = some (d, extra) := by
  intro extra
  unfold parseBlocks storedBlocks
  have hd : d.length ≤ (d.length + 1) * 65535 := by
    have := Nat.le_mul_of_pos_right (d.length + 1) (show 0 < 65535 by omega)
    omega
  exact parseBlocksF_storedBlocksF d.length d hd extra _ (by omega)

theorem decompressObject_cons (rest : List Nat) :
    decompressObject (120 :: 1 :: rest) =
      match parseBlocks rest with
      | none => .error (.io .invalidData)
      | some (dat, trailer) =>
        if trailer = wordToBytes (adler32 dat) then .ok dat
        else .error (.io .invalidData) := by
  rfl

theorem decompress_roundtrip (x : List Nat) :
    decompressObject (compressContent x) = .ok x := by
  have hpb := parseBlocks_storedBlocks x (wordToBytes (adler32 x))
  unfold compressContent
  simp only [List.cons_append]
  rw [decompressObject_cons, hpb]
  simp

/-- Claim C9: for every byte sequence `x`, including the empty one,
`decompress(compress(x)) = x` (the Compression Adapter round-trip,
`GitRepo::decompress_object` after `GitRepo::compress_content`, over the
modelled zlib stored-block stream). -/
theorem c9_decompress_compress_roundtrip (x : List Nat) :
    decompressObject (compressContent x) = .ok x :=
  decompress_roundtrip x

/-- Character-level facts about a kind token that make the object header
parse back: non-empty, and free of NUL, non-ASCII and whitespace. -/
def kindToken (kind : List Nat) : Prop :=
  kind ≠ [] ∧ ∀ c ∈ kind, c ≠ 0 ∧ c < 128 ∧ isUniWS c = false

instance (kind : List Nat) : Decidable (kindToken kind) := by
  unfold kindToken; infer_instance

theorem parseHeader_encodeObj (kind p : List Nat) (hk : kindToken kind)
    (hlen : p.length < 18446744073709551616) :
    parseHeader (encodeObj kind p) = .ok (kind, p.length, p) := by
  obtain ⟨hk0, hkc⟩ := hk
  have hnd := natDigits_mem p.length
  have hform : encodeObj kind p = (kind ++ 32 :: natDigits p.length) ++ 0 :: p := by
    unfold encodeObj; simp
  have hAz : ∀ x ∈ kind ++ 32 :: natDigits p.length, x ≠ 0 := by
    intro x hx
    rcases List.mem_append.mp hx with h1 | h2
    · exact (hkc x h1).1
    · rcases List.mem_cons.mp h2 with rfl | h3
      · omega
      · have := hnd x h3; omega
  have hA128 : ∀ x ∈ kind ++ 32 :: natDigits p.length, x < 128 := by
    intro x hx
    rcases List.mem_append.mp hx with h1 | h2
    · exact (hkc x h1).2.1
    · rcases List.mem_cons.mp h2 with rfl | h3
      · omega
      · have := hnd x h3; omega
  have hsplit : splitWS (kind ++ 32 :: natDigits p.length) = [kind, natDigits p.length] :=
    splitWS_two kind (natDigits p.length) hk0 (natDigits_ne_nil _)
      (fun c hc => (hkc c hc).2.2) (fun c hc => digit_not_ws c (hnd c hc).1 (hnd c hc).2)
  rw [hform]
  unfold parseHeader
  simp only [findIdx?_zero_append _ p hAz, List.take_left,
    utf8Decode_ascii _ hA128, hsplit, parseUsize_natDigits p.length hlen,
    drop_append_cons]

theorem hashObject_length (p t : List Nat) : (hashObject p t).length = 40 := by
  unfold hashObject
  rw [hexEncode_length, sha1_length]

/-- Claim C4: the digest is computed over exactly the canonical encoding
`<kind> <decimal payload length>\0<payload>` (the bytes `hash_object`
feeds the hasher equal the encoded object built at the `write_object`
call sites), a blob with payload `"hello\n"` encodes to the exact bytes
`"blob 6\0hello\n"`, and every digest renders as 40 characters that are
all lower-case hex digits. -/
theorem c4_digest_over_canonical_encoding :
    (∀ objectType payload : List Nat,
      hashInput payload objectType = encodeObj objectType payload) ∧
    encodeObj (asciiB "blob") (asciiB "hello\n") = asciiB "blob 6\x00hello\n" ∧
    ∀ objectType payload : List Nat,
      (hashObject payload objectType).length = 40 ∧
      (hashObject payload objectType).all
        (fun c => decide ((48 ≤ c ∧ c ≤ 57) ∨ (97 ≤ c ∧ c ≤ 102))) = true := by
  refine ⟨fun t p => rfl, by decide, fun t p => ⟨hashObject_length p t, ?_⟩⟩
  rw [List.all_eq_true]
  intro c hc
  exact decide_eq_true (hexEncode_all _ (sha1_mem_lt _) c hc)

/-- Claim C3, counterexample: decoding the canonical encoding of
`(blob, [0xFF])` does not return `(blob, [0xFF])` — `from_raw` converts
a blob's content through `String::from_utf8`, which fails on the
non-UTF-8 payload, so the decode errors with the `Utf8` error instead. -/
theorem c3_counterexample :
    fromRaw (encodeObj (asciiB "blob") [255]) = .error .utf8 := by decide

/-- Claim C3 as amended: for both kinds and every payload (of `usize`
length), the header stage of decoding recovers exactly the kind, the
payload length and the raw payload bytes; the full decode then converts
the content (a blob payload must additionally be valid UTF-8, a tree
payload is parsed into its entry names). -/
theorem c3_header_roundtrip (kind payload : List Nat)
    (hkind : kind = asciiB "blob" ∨ kind = asciiB "tree")
    (hlen : payload.length < 18446744073709551616) :
    parseHeader (encodeObj kind payload) = .ok (kind, payload.length, payload) := by
  rcases hkind with rfl | rfl
  · exact parseHeader_encodeObj _ _ (by decide) hlen
  · exact parseHeader_encodeObj _ _ (by decide) hlen

theorem c3_header_roundtrip_witness :
    ((asciiB "blob" = asciiB "blob" ∨ asciiB "blob" = asciiB "tree") ∧
      ([104, 105] : List Nat).length < 18446744073709551616) ∧
    parseHeader (encodeObj (asciiB "blob") [104, 105]) =
      .ok (asciiB "blob", 2, [104, 105]) :=
  ⟨⟨Or.inl rfl, by decide⟩,
    c3_header_roundtrip (asciiB "blob") [104, 105] (Or.inl rfl) (by decide)⟩

/-- Claim C8, counterexample: for the raw bytes `[0xFF, 0x00]` the
header (the single byte `0xFF`) does not split into two whitespace
tokens, so the claim demands a `MalformedHeader` (`Parse`) failure, but
the code fails the earlier `String::from_utf8` conversion and returns
the `Utf8` error instead. -/
theorem c8_counterexample :
    parseHeader [255, 0] = .error .utf8 ∧ (splitWS [255]).length ≠ 2 := by
  decide

/-- Claim C8 as amended: when the NUL byte is absent decoding fails with
`Parse "Invalid object format"`; when the pre-NUL bytes decode as UTF-8,
the header stage fails with a `Parse` (MalformedHeader) error exactly
when the token count differs from two or the length token fails `usize`
parsing; and the tree-payload scan fails with
`Parse "Incomplete SHA"` (TruncatedEntry) when fewer than 20 bytes
remain for the digest field of an otherwise well-formed entry head. -/
theorem c8_malformed_headers :
    (∀ raw : List Nat, raw.findIdx? (fun b => b == 0) = none →
      parseHeader raw = .error (.parse "Invalid object format")) ∧
    (∀ raw n header, raw.findIdx? (fun b => b == 0) = some n →
      utf8Decode (raw.take n) = some header →
      ((∃ msg, parseHeader raw = .error (.parse msg)) ↔
        (splitWS header).length ≠ 2 ∨
        ∃ t0 t1, splitWS header = [t0, t1] ∧ parseUsize t1 = none)) ∧
    (∀ (data : List Nat) n modeAndName mode name,
      data.findIdx? (fun x => x == 0) = some n →
      utf8Decode (data.take n) = some modeAndName →
      splitOnce32 modeAndName = some (mode, name) →
      (data.drop (n + 1)).length < 20 →
      readTree data = .error (.parse "Incomplete SHA")) := by
  refine ⟨?_, ?_, ?_⟩
  · intro raw h
    simp only [parseHeader, h]
  · intro raw n header h1 h2
    simp only [parseHeader, h1, h2]
    rcases hs : splitWS header with _ | ⟨t0, _ | ⟨t1, _ | ⟨t2, rest⟩⟩⟩
    · simp
    · simp
    · rcases hp : parseUsize t1 with _ | v
      · simp [hp]
        exact ⟨t0, t1, ⟨rfl, rfl⟩, hp⟩
      · simp [hp]
    · simp
  · intro data n modeAndName mode name h1 h2 h3 h4
    have hne : data ≠ [] := by
      intro h
      rw [h] at h1
      simp [List.findIdx?_nil] at h1
    obtain ⟨b, tl, rfl⟩ : ∃ b tl, data = b :: tl := by
      cases data with
      | nil => exact absurd rfl hne
      | cons b tl => exact ⟨b, tl, rfl⟩
    unfold readTree
    simp only [List.length_cons, readTreeF, h1, h2, h3]
    rw [if_pos h4]

theorem c8_malformed_headers_witness :
    parseHeader [1, 2] = .error (.parse "Invalid object format") ∧
    ((∃ msg, parseHeader [98, 108, 111, 98, 0] = .error (.parse msg)) ↔
      (splitWS [98, 108, 111, 98]).length ≠ 2 ∨
      ∃ t0 t1, splitWS [98, 108, 111, 98] = [t0, t1] ∧ parseUsize t1 = none) ∧
    readTree (asciiB "100644 a" ++ [0] ++ [1, 2, 3]) =
      .error (.parse "Incomplete SHA") :=
  ⟨c8_malformed_headers.1 [1, 2] (by decide),
   c8_malformed_headers.2.1 [98, 108, 111, 98, 0] 4 [98, 108, 111, 98]
     (by decide) (by decide),
   c8_malformed_headers.2.2 (asciiB "100644 a" ++ [0] ++ [1, 2, 3]) 8
     (asciiB "100644 a") (asciiB "100644") [97]
     (by decide) (by decide) (by decide) (by decide)⟩

theorem fsCreateDir_ok (fs : FS) (p : Path) (h1 : p ∉ fs.dirs)
    (h2 : dirExists fs p.dropLast) :
    fsCreateDir fs p = .ok ⟨p :: fs.dirs, fs.files⟩ := by
  unfold fsCreateDir
  rw [if_neg h1, if_pos h2]

theorem fsWrite_ok (fs : FS) (p : Path) (data : List Nat)
    (h : dirExists fs p.dropLast) :
    fsWrite fs p data = .ok ⟨fs.dirs, (p, data) :: fs.files⟩ := by
  unfold fsWrite
  rw [if_pos h]

theorem writeObject_ok (fs : FS) (hash data : List Nat)
    (h1 : [gitD, objectsD, hash.take 2] ∉ fs.dirs)
    (h2 : [gitD, objectsD] ∈ fs.dirs) :
    writeObject fs hash data =
      .ok ⟨[gitD, objectsD, hash.take 2] :: fs.dirs,
        ([gitD, objectsD, hash.take 2, hash.drop 2], compressContent data)
          :: fs.files⟩ := by
  have hcd := fsCreateDir_ok fs [gitD, objectsD, hash.take 2] h1
    (by simp [dirExists, h2])
  have hfw := fsWrite_ok ⟨[gitD, objectsD, hash.take 2] :: fs.dirs, fs.files⟩
    [gitD, objectsD, hash.take 2, hash.drop 2] (compressContent data)
    (by simp [dirExists])
  simp only [writeObject, hcd, hfw]

theorem fromRaw_encodeObj_blob (payload cs : List Nat)
    (hutf : utf8Decode payload = some cs)
    (hlen : payload.length < 18446744073709551616) :
    fromRaw (encodeObj (asciiB "blob") payload) =
      .ok ⟨asciiB "blob", cs, payload.length⟩ := by
  have hph := parseHeader_encodeObj (asciiB "blob") payload (by decide) hlen
  simp only [fromRaw, hph, hutf]
  simp

set_option maxRecDepth 10000 in
/-- Claim C1, counterexample: write-then-read does not return the
written payload for every kind and payload.  A blob with the non-UTF-8
payload `[0xFF]` reads back as a `Utf8` error, and a tree object reads
back with its content replaced by the entry-name listing (`"a"`) rather
than the 29-byte payload that was written. -/
theorem c1_counterexample :
    (writeKindPayload freshStore (asciiB "blob") [255]).map
      (fun r => readObject r.1 r.2) = .ok (.error .utf8) ∧
    (writeKindPayload freshStore (asciiB "tree")
        (asciiB "100644 a" ++ [0] ++ List.replicate 20 1)).map
      (fun r => readObject r.1 r.2) =
      .ok (.ok ⟨asciiB "tree", [97], 29⟩) ∧
    ([97] : List Nat) ≠ asciiB "100644 a" ++ [0] ++ List.replicate 20 1 := by
  decide

/-- Claim C1 as amended: for a blob payload that is valid UTF-8 (of
`usize` length), writing via the store (hash, encode, compress, persist)
and reading the returned digest yields an object with the same kind,
the declared size equal to the payload length, and content equal to the
UTF-8 decoding of the payload.  (Non-UTF-8 blob payloads fail the read
with a `Utf8` error, and tree reads return the name listing, per the
counterexample.)  The store-side hypotheses say the `objects` directory
exists and the digest's two-hex-prefix subdirectory does not (else
`write_object`'s `create_dir` fails, see C2). -/
theorem c1_write_then_read (fs : FS) (payload cs : List Nat)
    (hutf : utf8Decode payload = some cs)
    (hlen : payload.length < 18446744073709551616)
    (hobj : [gitD, objectsD] ∈ fs.dirs)
    (hnew : [gitD, objectsD, (hashObject payload (asciiB "blob")).take 2] ∉ fs.dirs) :
    ∃ fs', writeKindPayload fs (asciiB "blob") payload =
        .ok (fs', hashObject payload (asciiB "blob")) ∧
      readObject fs' (hashObject payload (asciiB "blob")) =
        .ok ⟨asciiB "blob", cs, payload.length⟩ := by
  have hwo := writeObject_ok fs (hashObject payload (asciiB "blob"))
    (encodeObj (asciiB "blob") payload) hnew hobj
  refine ⟨⟨[gitD, objectsD, (hashObject payload (asciiB "blob")).take 2] :: fs.dirs,
      ([gitD, objectsD, (hashObject payload (asciiB "blob")).take 2,
        (hashObject payload (asciiB "blob")).drop 2],
        compressContent (encodeObj (asciiB "blob") payload)) :: fs.files⟩,
    by simp only [writeKindPayload, hwo], ?_⟩
  have hfind : fsRead
      ⟨[gitD, objectsD, (hashObject payload (asciiB "blob")).take 2] :: fs.dirs,
        ([gitD, objectsD, (hashObject payload (asciiB "blob")).take 2,
          (hashObject payload (asciiB "blob")).drop 2],
          compressContent (encodeObj (asciiB "blob") payload)) :: fs.files⟩
      [gitD, objectsD, (hashObject payload (asciiB "blob")).take 2,
        (hashObject payload (asciiB "blob")).drop 2] =
      .ok (compressContent (encodeObj (asciiB "blob") payload)) := by
    unfold fsRead
    rw [List.find?_cons_of_pos _ (by simp)]
  unfold readObject
  rw [if_neg (by rw [hashObject_length]; omega)]
  simp only [hfind, decompress_roundtrip,
    fromRaw_encodeObj_blob payload cs hutf hlen]

set_option maxRecDepth 10000 in
theorem c1_write_then_read_witness :
    (utf8Decode [104, 105] = some [104, 105] ∧
      ([104, 105] : List Nat).length < 18446744073709551616 ∧
      [gitD, objectsD] ∈ freshStore.dirs ∧
      [gitD, objectsD, (hashObject [104, 105] (asciiB "blob")).take 2]
        ∉ freshStore.dirs) ∧
    ∃ fs', writeKindPayload freshStore (asciiB "blob") [104, 105] =
        .ok (fs', hashObject [104, 105] (asciiB "blob")) ∧
      readObject fs' (hashObject [104, 105] (asciiB "blob")) =
        .ok ⟨asciiB "blob", [104, 105], 2⟩ :=
  ⟨⟨by decide, by decide, by decide, by decide⟩,
    c1_write_then_read freshStore [104, 105] [104, 105]
      (by decide) (by decide) (by decide) (by decide)⟩

/-- Claim C2, behavior at the failing input: writing the same object
twice into an initialized store succeeds the first time but fails the
second with the `AlreadyExists` error propagated (via `?`) from
`fs::create_dir` on the already-existing two-hex-prefix subdirectory —
`write_object` is not idempotent; the same failure hits any two writes
whose digests share their first two hex characters. -/
theorem c2_write_not_idempotent :
    (writeObject freshStore (asciiB "abcd") [1, 2, 3]).map
      (fun fs1 => writeObject fs1 (asciiB "abcd") [1, 2, 3]) =
      .ok (.error (.io .alreadyExists)) := by
  decide

/-- A well-formed filesystem state: no empty directory path, and
directories and files hang below existing directories. -/
def wfFS (fs : FS) : Prop :=
  (∀ p ∈ fs.dirs, p ≠ [] ∧ (p.dropLast = [] ∨ p.dropLast ∈ fs.dirs)) ∧
  (∀ q ∈ fs.files, q.1.dropLast = [] ∨ q.1.dropLast ∈ fs.dirs)

instance (fs : FS) : Decidable (wfFS fs) := by
  unfold wfFS; infer_instance

theorem wf_no_deep_dirs (fs : FS) (hwf : wfFS fs) (hroot : [gitD] ∉ fs.dirs) :
    ∀ a, [gitD, a] ∉ fs.dirs := by
  intro a hmem
  have h2 := (hwf.1 _ hmem).2
  simp only [List.dropLast] at h2
  rcases h2 with h2 | h2
  · simp at h2
  · exact hroot h2

theorem wf_no_deep_dirs3 (fs : FS) (hwf : wfFS fs) (hroot : [gitD] ∉ fs.dirs) :
    ∀ a b, [gitD, a, b] ∉ fs.dirs := by
  intro a b hmem
  have h2 := (hwf.1 _ hmem).2
  simp only [List.dropLast] at h2
  rcases h2 with h2 | h2
  · simp at h2
  · exact wf_no_deep_dirs fs hwf hroot a h2

theorem writeObject_ok_dirs (fs0 : FS) (h d : List Nat) (fs' : FS)
    (hw : writeObject fs0 h d = .ok fs') :
    fs'.dirs = [gitD, objectsD, h.take 2] :: fs0.dirs := by
  unfold writeObject at hw
  rcases hcd : fsCreateDir fs0 [gitD, objectsD, h.take 2] with e | fs1
  · rw [hcd] at hw
    simp at hw
  · rw [hcd] at hw
    simp only [] at hw
    have hdirs : fs1.dirs = [gitD, objectsD, h.take 2] :: fs0.dirs := by
      unfold fsCreateDir at hcd
      split_ifs at hcd
      all_goals cases hcd
      all_goals rfl
    unfold fsWrite at hw
    split_ifs at hw
    all_goals cases hw
    all_goals simpa using hdirs

/-- Claim C6, counterexample: calling read or write on a store whose
root directory is absent fails with the wrapped `Io` `NotFound` error —
the source's `GitError` enum has no `StoreNotInitialized` variant at
all, so the failure the claim names cannot occur. -/
theorem c6_counterexample :
    readObject ⟨[], []⟩ (asciiB "abcd") = .error (.io .notFound) ∧
    writeObject ⟨[], []⟩ (asciiB "abcd") [1] = .error (.io .notFound) := by
  decide

/-- Claim C6 as amended: on a well-formed store state whose root
directory is absent, `read_object` (for any digest of length at least
two) and `write_object` both fail with the `Io` `NotFound` error
(`GitError` has no `StoreNotInitialized` variant); and no successful
`write_object` changes whether the root exists, so `init` remains the
only operation that creates it. -/
theorem c6_uninitialized_store (fs : FS) (hash data : List Nat)
    (hwf : wfFS fs) (hroot : [gitD] ∉ fs.dirs) :
    (2 ≤ hash.length → readObject fs hash = .error (.io .notFound)) ∧
    writeObject fs hash data = .error (.io .notFound) ∧
    (∀ (fs0 : FS) (h d : List Nat) (fs' : FS), writeObject fs0 h d = .ok fs' →
      ([gitD] ∈ fs'.dirs ↔ [gitD] ∈ fs0.dirs)) := by
  refine ⟨?_, ?_, ?_⟩
  · intro hlen
    unfold readObject
    rw [if_neg (by omega)]
    have hfind : fs.files.find?
        (fun q => q.1 == [gitD, objectsD, hash.take 2, hash.drop 2]) = none := by
      rw [List.find?_eq_none]
      intro q hq hbeq
      have hq1 : q.1 = [gitD, objectsD, hash.take 2, hash.drop 2] := by
        exact eq_of_beq hbeq
      have h2 := hwf.2 q hq
      rw [hq1] at h2
      simp only [List.dropLast] at h2
      rcases h2 with h2 | h2
      · simp at h2
      · exact wf_no_deep_dirs3 fs hwf hroot _ _ h2
    simp only [fsRead, hfind]
  · unfold writeObject fsCreateDir
    rw [if_neg (wf_no_deep_dirs3 fs hwf hroot _ _)]
    rw [if_neg (by
      simp only [dirExists, List.dropLast]
      simp
      exact wf_no_deep_dirs fs hwf hroot _)]
  · intro fs0 h d fs' hw
    rw [writeObject_ok_dirs fs0 h d fs' hw]
    simp

theorem c6_uninitialized_store_witness :
    (wfFS ⟨[], []⟩ ∧ [gitD] ∉ (FS.mk [] []).dirs ∧ 2 ≤ (asciiB "abcd").length) ∧
    readObject ⟨[], []⟩ (asciiB "abcd") = .error (.io .notFound) :=
  ⟨⟨by decide, by decide, by decide⟩,
    ((c6_uninitialized_store ⟨[], []⟩ (asciiB "abcd") [1]
      (by decide) (by decide)).1 (by decide))⟩

/-- Claim C7, counterexample: when the store root `.git` already exists,
`init` does not return an `AlreadyExists` failure — every filesystem
call in `init` is `.unwrap()`ed, so the `AlreadyExists` error from
`fs::create_dir(".git")` aborts the process (a panic, modelled as
`none`) instead of being returned as a typed `GitError`. -/
theorem c7_counterexample : init ⟨[[gitD]], []⟩ = none := by decide

/-- Claim C7 as amended: `init` creates the root directory, the
`objects` and `refs` subdirectories and the `HEAD` file when the root is
absent; when the root already exists, the underlying create fails with
`AlreadyExists` but `init` panics via `unwrap` (process abort, modelled
as `none`) rather than returning the typed failure. -/
theorem c7_init (fs : FS) (hwf : wfFS fs) :
    ([gitD] ∈ fs.dirs → init fs = none) ∧
    ([gitD] ∉ fs.dirs → init fs =
      some ⟨[gitD, refsD] :: [gitD, objectsD] :: [gitD] :: fs.dirs,
        ([gitD, headD], asciiB "ref: refs/heads/main\n") :: fs.files⟩) := by
  constructor
  · intro h
    unfold init fsCreateDir
    rw [if_pos h]
  · intro h
    have hno2 : ∀ a, [gitD, a] ∉ ([gitD] :: fs.dirs) := by
      intro a hmem
      rcases List.mem_cons.mp hmem with he | hm
      · simp at he
      · exact wf_no_deep_dirs fs hwf h a hm
    have hno2' : [gitD, refsD] ∉ ([gitD, objectsD] :: [gitD] :: fs.dirs) := by
      intro hmem
      rcases List.mem_cons.mp hmem with he | hm
      · simp [objectsD, refsD, asciiB] at he
      · exact hno2 _ hm
    have h1 := fsCreateDir_ok fs [gitD] h (by simp [dirExists])
    have h2 := fsCreateDir_ok ⟨[gitD] :: fs.dirs, fs.files⟩ [gitD, objectsD]
      (hno2 _) (by simp [dirExists])
    have h3 := fsCreateDir_ok ⟨[gitD, objectsD] :: [gitD] :: fs.dirs, fs.files⟩
      [gitD, refsD] hno2' (by simp [dirExists])
    have h4 := fsWrite_ok
      ⟨[gitD, refsD] :: [gitD, objectsD] :: [gitD] :: fs.dirs, fs.files⟩
      [gitD, headD] (asciiB "ref: refs/heads/main\n") (by simp [dirExists])
    simp only [init, h1, h2, h3, h4]

theorem c7_init_witness :
    (wfFS ⟨[], []⟩ ∧ [gitD] ∉ (FS.mk [] []).dirs) ∧
    init ⟨[], []⟩ = some ⟨[[gitD, refsD], [gitD, objectsD], [gitD]],
      [([gitD, headD], asciiB "ref: refs/heads/main\n")]⟩ :=
  ⟨⟨by decide, by decide⟩, (c7_init ⟨[], []⟩ (by decide)).2 (by decide)⟩

theorem lexLeb_total : ∀ a b : List Nat, lexLeb a b = true ∨ lexLeb b a = true := by
  intro a
  induction a with
  | nil => intro b; left; rfl
  | cons x xs ih =>
    intro b
    cases b with
    | nil => right; rfl
    | cons y ys =>
      simp only [lexLeb]
      rcases Nat.lt_trichotomy x y with h | h | h
      · left; rw [if_pos h]
      · subst h
        rw [if_neg (by omega), if_neg (by omega), if_neg (by omega),
          if_neg (by omega)]
        exact ih ys
      · right; rw [if_pos h]

theorem lexLeb_trans : ∀ a b c : List Nat, lexLeb a b = true →
    lexLeb b c = true → lexLeb a c = true := by
  intro a
  induction a with
  | nil => intro b c _ _; rfl
  | cons x xs ih =>
    intro b c hab hbc
    cases b with
    | nil => simp [lexLeb] at hab
    | cons y ys =>
      cases c with
      | nil => simp [lexLeb] at hbc
      | cons z zs =>
        simp only [lexLeb] at hab hbc ⊢
        rcases Nat.lt_trichotomy x y with h1 | h1 | h1
        · rcases Nat.lt_trichotomy y z with h2 | h2 | h2
          · rw [if_pos (by omega)]
          · subst h2; rw [if_pos h1]
          · rw [if_neg (by omega), if_pos h2] at hbc; cases hbc
        · subst h1
          rw [if_neg (by omega), if_neg (by omega)] at hab
          rcases Nat.lt_trichotomy x z with h2 | h2 | h2
          · rw [if_pos h2]
          · subst h2
            rw [if_neg (by omega), if_neg (by omega)] at hbc ⊢
            exact ih ys zs hab hbc
          · rw [if_neg (by omega), if_pos h2] at hbc; cases hbc
        · rw [if_neg (by omega), if_pos h1] at hab; cases hab

theorem lexLeb_antisymm : ∀ a b : List Nat, lexLeb a b = true →
    lexLeb b a = true → a = b := by
  intro a
  induction a with
  | nil =>
    intro b _ hba
    cases b with
    | nil => rfl
    | cons y ys => simp [lexLeb] at hba
  | cons x xs ih =>
    intro b hab hba
    cases b with
    | nil => simp [lexLeb] at hab
    | cons y ys =>
      simp only [lexLeb] at hab hba
      rcases Nat.lt_trichotomy x y with h | h | h
      · rw [if_neg (by omega), if_pos h] at hba; cases hba
      · subst h
        rw [if_neg (by omega), if_neg (by omega)] at hab hba
        rw [ih ys hab hba]
      · rw [if_neg (by omega), if_pos h] at hab; cases hab

instance : IsTotal TreeEntry entryLe :=
  ⟨fun a b => lexLeb_total a.2.1 b.2.1⟩

instance : IsTrans TreeEntry entryLe :=
  ⟨fun a b c => lexLeb_trans a.2.1 b.2.1 c.2.1⟩

/-- The strict version of `entryLe`: smaller name, and names differ. -/
def entryLt (a b : TreeEntry) : Prop := entryLe a b ∧ a.2.1 ≠ b.2.1

instance : IsAntisymm TreeEntry entryLt :=
  ⟨fun a b hab hba => absurd (lexLeb_antisymm a.2.1 b.2.1 hab.1 hba.1) hab.2⟩

theorem sorted_sortEntries (l : List TreeEntry) :
    List.Sorted entryLe (sortEntries l) :=
  List.sorted_insertionSort entryLe l

theorem perm_sortEntries (l : List TreeEntry) : (sortEntries l).Perm l :=
  List.perm_insertionSort entryLe l

theorem sorted_lt_of_nodup_names (l : List TreeEntry)
    (hs : List.Sorted entryLe l)
    (hn : (l.map (fun e => e.2.1)).Nodup) :
    List.Sorted entryLt l := by
  have hne : l.Pairwise (fun a b : TreeEntry => a.2.1 ≠ b.2.1) :=
    List.pairwise_map.mp hn
  exact hs.and hne

theorem sortEntries_eq_of_perm (l1 l2 : List TreeEntry) (hperm : l1.Perm l2)
    (hn : (l1.map (fun e => e.2.1)).Nodup) :
    sortEntries l1 = sortEntries l2 := by
  have hn2 : (l2.map (fun e => e.2.1)).Nodup :=
    ((hperm.map (fun e => e.2.1)).nodup_iff).mp hn
  have hp : (sortEntries l1).Perm (sortEntries l2) :=
    ((perm_sortEntries l1).trans hperm).trans (perm_sortEntries l2).symm
  refine List.eq_of_perm_of_sorted (r := entryLt) hp ?_ ?_
  · exact sorted_lt_of_nodup_names _ (sorted_sortEntries l1)
      (((perm_sortEntries l1).map (fun e => e.2.1)).nodup_iff.mpr hn)
  · exact sorted_lt_of_nodup_names _ (sorted_sortEntries l2)
      (((perm_sortEntries l2).map (fun e => e.2.1)).nodup_iff.mpr hn2)

theorem treeFuel_irrel : ∀ f1 : Nat,
    (∀ (e : FSEntry) (f2 : Nat), entryFuelOK f1 e = true →
      entryFuelOK f2 e = true → childEntryF f1 e = childEntryF f2 e) ∧
    (∀ (l : List FSEntry) (f2 : Nat), listFuelOK f1 l = true →
      listFuelOK f2 l = true → collectEntriesF f1 l = collectEntriesF f2 l) := by
  intro f1
  induction f1 with
  | zero =>
    constructor
    · intro e f2 h1 h2
      cases e with
      | file n p c => cases f2 <;> rfl
      | dir n p ch => simp [entryFuelOK] at h1
    · intro l f2 h1 h2
      cases l with
      | nil => cases f2 <;> rfl
      | cons e rest => simp [listFuelOK] at h1
  | succ f1 ih =>
    constructor
    · intro e f2 h1 h2
      cases e with
      | file n p c => cases f2 <;> rfl
      | dir n p ch =>
        cases f2 with
        | zero => simp [entryFuelOK] at h2
        | succ f2 =>
          simp only [entryFuelOK] at h1 h2
          simp only [childEntryF]
          rw [ih.2 ch f2 h1 h2]
    · intro l f2 h1 h2
      cases l with
      | nil => cases f2 <;> rfl
      | cons e rest =>
        cases f2 with
        | zero => simp [listFuelOK] at h2
        | succ f2 =>
          simp only [listFuelOK, Bool.and_eq_true] at h1 h2
          simp only [collectEntriesF]
          rw [ih.1 e f2 h1.1 h2.1, ih.2 rest f2 h1.2 h2.2]

theorem fuelOK_mono : ∀ f : Nat,
    (∀ g, f ≤ g → ∀ e, entryFuelOK f e = true → entryFuelOK g e = true) ∧
    (∀ g, f ≤ g → ∀ l, listFuelOK f l = true → listFuelOK g l = true) := by
  intro f
  induction f with
  | zero =>
    constructor
    · intro g _ e h
      cases e with
      | file n p c => cases g <;> rfl
      | dir n p ch => simp [entryFuelOK] at h
    · intro g _ l h
      cases l with
      | nil => cases g <;> rfl
      | cons e rest => simp [listFuelOK] at h
  | succ f ih =>
    constructor
    · intro g hfg e h
      cases e with
      | file n p c => cases g <;> rfl
      | dir n p ch =>
        cases g with
        | zero => omega
        | succ g =>
          simp only [entryFuelOK] at h ⊢
          exact ih.2 g (by omega) ch h
    · intro g hfg l h
      cases l with
      | nil => cases g <;> rfl
      | cons e rest =>
        cases g with
        | zero => omega
        | succ g =>
          simp only [listFuelOK, Bool.and_eq_true] at h ⊢
          exact ⟨ih.1 g (by omega) e h.1, ih.2 g (by omega) rest h.2⟩

theorem all_of_listFuelOK (f : Nat) (l : List FSEntry)
    (h : listFuelOK f l = true) : ∀ e ∈ l, entryFuelOK f e = true := by
  induction l generalizing f with
  | nil => intro e he; simp at he
  | cons x rest ih =>
    intro e he
    cases f with
    | zero => simp [listFuelOK] at h
    | succ f =>
      simp only [listFuelOK, Bool.and_eq_true] at h
      rcases List.mem_cons.mp he with rfl | hm
      · exact (fuelOK_mono f).1 (f + 1) (by omega) e h.1
      · exact (fuelOK_mono f).1 (f + 1) (by omega) e (ih f h.2 e hm)

theorem listFuelOK_of_all (l : List FSEntry) (f : Nat)
    (h : ∀ e ∈ l, entryFuelOK f e = true) :
    listFuelOK (f + l.length) l = true := by
  induction l with
  | nil =>
    simp only [List.length_nil, Nat.add_zero]
    cases f <;> rfl
  | cons x rest ih =>
    have hlen : f + (x :: rest).length = (f + rest.length) + 1 := by
      simp [List.length_cons]; omega
    rw [hlen]
    simp only [listFuelOK, Bool.and_eq_true]
    constructor
    · exact (fuelOK_mono f).1 (f + rest.length) (by omega) x (h x (by simp))
    · exact ih (fun e he => h e (by simp [he]))

theorem collect_perm (l1 l2 : List FSEntry) (hperm : l1.Perm l2) :
    ∀ f1 f2, listFuelOK f1 l1 = true → listFuelOK f2 l2 = true →
      (collectEntriesF f1 l1).Perm (collectEntriesF f2 l2) := by
  induction hperm with
  | nil => intro f1 f2 _ _; cases f1 <;> cases f2 <;> exact List.Perm.refl _
  | cons x p ih =>
    intro f1 f2 h1 h2
    cases f1 with
    | zero => simp [listFuelOK] at h1
    | succ f1 =>
      cases f2 with
      | zero => simp [listFuelOK] at h2
      | succ f2 =>
        simp only [listFuelOK, Bool.and_eq_true] at h1 h2
        simp only [collectEntriesF]
        rw [(treeFuel_irrel f1).1 x f2 h1.1 h2.1]
        cases childEntryF f2 x with
        | none => exact ih f1 f2 h1.2 h2.2
        | some ent => exact (ih f1 f2 h1.2 h2.2).cons ent
  | swap x y l =>
    intro f1 f2 h1 h2
    cases f1 with
    | zero => simp [listFuelOK] at h1
    | succ f1 =>
      cases f2 with
      | zero => simp [listFuelOK] at h2
      | succ f2 =>
        simp only [listFuelOK, Bool.and_eq_true] at h1 h2
        cases f1 with
        | zero => simp [listFuelOK] at h1
        | succ f1 =>
          cases f2 with
          | zero => simp [listFuelOK] at h2
          | succ f2 =>
            simp only [listFuelOK, Bool.and_eq_true] at h1 h2
            simp only [collectEntriesF]
            rw [(treeFuel_irrel f1).1 x (f2 + 1) h1.2.1 h2.1,
              (treeFuel_irrel (f1 + 1)).1 y f2 h1.1 h2.2.1,
              (treeFuel_irrel f1).2 l f2 h1.2.2 h2.2.2]
            cases childEntryF f2 y with
            | none =>
              cases childEntryF (f2 + 1) x with
              | none => exact List.Perm.refl _
              | some ex => exact List.Perm.refl _
            | some ey =>
              cases childEntryF (f2 + 1) x with
              | none => exact List.Perm.refl _
              | some ex => exact List.Perm.swap ex ey _
  | trans p1 p2 ih1 ih2 =>
    intro f1 f2 h1 h2
    rename_i la lb lc
    have hballs : ∀ e ∈ lb, entryFuelOK f1 e = true := by
      intro e he
      exact all_of_listFuelOK f1 la h1 e (p1.mem_iff.mpr he)
    have hb : listFuelOK (f1 + lb.length) lb = true := listFuelOK_of_all lb f1 hballs
    exact (ih1 f1 (f1 + lb.length) h1 hb).trans (ih2 (f1 + lb.length) f2 hb h2)

set_option maxRecDepth 10000 in
/-- Claim C5: the Tree Builder's entries are sorted by name in byte-wise
ascending order — concretely, names `"a"`, `"B"`, `"ab"` are emitted in
the order `"B"`, `"a"`, `"ab"`; the sorted entry list is always
`Sorted entryLe` (byte-wise ascending by name); and two directories with
the same children (as a permutation, i.e. regardless of filesystem
enumeration order) and pairwise-distinct entry names produce the same
tree digest, for any sufficient fuels. -/
theorem c5_entries_sorted_deterministic :
    ((sortEntries (collectEntriesF 5
      [.file (asciiB "a") 420 [49], .file (asciiB "B") 420 [50],
        .file (asciiB "ab") 420 [51]])).map (fun e => e.2.1) =
      [asciiB "B", asciiB "a", asciiB "ab"]) ∧
    (∀ l : List TreeEntry, List.Sorted entryLe (sortEntries l)) ∧
    (∀ (ch1 ch2 : List FSEntry) (f1 f2 : Nat), ch1.Perm ch2 →
      listFuelOK f1 ch1 = true → listFuelOK f2 ch2 = true →
      ((collectEntriesF f1 ch1).map (fun e => e.2.1)).Nodup →
      writeTreeHashF f1 ch1 = writeTreeHashF f2 ch2) := by
  refine ⟨by decide, sorted_sortEntries, ?_⟩
  intro ch1 ch2 f1 f2 hperm h1 h2 hnodup
  unfold writeTreeHashF
  rw [sortEntries_eq_of_perm (collectEntriesF f1 ch1) (collectEntriesF f2 ch2)
    (collect_perm ch1 ch2 hperm f1 f2 h1 h2) hnodup]

set_option maxRecDepth 10000 in
theorem c5_entries_sorted_deterministic_witness :
    (([FSEntry.file (asciiB "a") 420 [49], FSEntry.file (asciiB "B") 420 [50]]
        : List FSEntry).Perm
        [FSEntry.file (asciiB "B") 420 [50], FSEntry.file (asciiB "a") 420 [49]] ∧
      listFuelOK 3 [FSEntry.file (asciiB "a") 420 [49],
        FSEntry.file (asciiB "B") 420 [50]] = true ∧
      listFuelOK 3 [FSEntry.file (asciiB "B") 420 [50],
        FSEntry.file (asciiB "a") 420 [49]] = true ∧
      ((collectEntriesF 3 [FSEntry.file (asciiB "a") 420 [49],
        FSEntry.file (asciiB "B") 420 [50]]).map (fun e => e.2.1)).Nodup) ∧
    writeTreeHashF 3 [FSEntry.file (asciiB "a") 420 [49],
        FSEntry.file (asciiB "B") 420 [50]] =
      writeTreeHashF 3 [FSEntry.file (asciiB "B") 420 [50],
        FSEntry.file (asciiB "a") 420 [49]] :=
  ⟨⟨List.Perm.swap _ _ _, by decide, by decide, by decide⟩,
    c5_entries_sorted_deterministic.2.2 _ _ 3 3 (List.Perm.swap _ _ _)
      (by decide) (by decide) (by decide)⟩

theorem childEntryF_mode (f : Nat) (e : FSEntry) (ent : TreeEntry)
    (h : childEntryF f e = some ent) :
    ent.1 = asciiB "40000" ∨ ent.1 = asciiB "100644" := by
  cases e with
  | file n p c =>
    right
    cases f with
    | zero =>
      simp only [childEntryF] at h
      split_ifs at h
      cases h
      rfl
    | succ f =>
      simp only [childEntryF] at h
      split_ifs at h
      cases h
      rfl
  | dir n p ch =>
    left
    cases f with
    | zero =>
      simp only [childEntryF] at h
      split_ifs at h
      cases h
      rfl
    | succ f =>
      simp only [childEntryF] at h
      split_ifs at h
      cases h
      rfl

/-- Claim C10: tree entries use a fixed mode token independent of the
filesystem permission word (the `perm` field is never consulted):
`"100644"` for every regular file — including, say, an executable with
permission bits 0o755 — and `"40000"` for every subdirectory; every
entry the builder records carries one of these two tokens. -/
theorem c10_fixed_mode_tokens :
    (∀ (fuel : Nat) name p p' content,
      childEntryF fuel (.file name p content) =
        childEntryF fuel (.file name p' content)) ∧
    (∀ (fuel : Nat) name p p' children,
      childEntryF fuel (.dir name p children) =
        childEntryF fuel (.dir name p' children)) ∧
    (∀ (fuel : Nat) name p content, name ≠ asciiB ".git" →
      childEntryF fuel (.file name p content) =
        some (asciiB "100644", name, hashObject content (asciiB "blob"))) ∧
    (∀ (fuel : Nat) name p children, name ≠ asciiB ".git" → ∃ digest,
      childEntryF fuel (.dir name p children) =
        some (asciiB "40000", name, digest)) ∧
    (∀ (fuel : Nat) (l : List FSEntry) ent, ent ∈ collectEntriesF fuel l →
      ent.1 = asciiB "40000" ∨ ent.1 = asciiB "100644") := by
  refine ⟨?_, ?_, ?_, ?_, ?_⟩
  · intro fuel n p p' c; cases fuel <;> rfl
  · intro fuel n p p' ch; cases fuel <;> rfl
  · intro fuel n p c h; cases fuel <;> simp [childEntryF, h]
  · intro fuel n p ch h
    cases fuel with
    | zero =>
      exact ⟨hashObject (treeEntriesBytes (sortEntries [])) (asciiB "tree"),
        by simp [childEntryF, h]⟩
    | succ f =>
      exact ⟨hashObject (treeEntriesBytes (sortEntries (collectEntriesF f ch)))
        (asciiB "tree"), by simp [childEntryF, h]⟩
  · intro fuel l
    induction l generalizing fuel with
    | nil => intro ent hm; cases fuel <;> simp [collectEntriesF] at hm
    | cons e rest ih =>
      intro ent hm
      cases fuel with
      | zero => simp [collectEntriesF] at hm
      | succ f =>
        simp only [collectEntriesF] at hm
        cases hce : childEntryF f e with
        | none =>
          rw [hce] at hm
          exact ih f ent hm
        | some x =>
          rw [hce] at hm
          rcases List.mem_cons.mp hm with rfl | hm2
          · exact childEntryF_mode f e ent hce
          · exact ih f ent hm2

set_option maxRecDepth 10000 in
theorem c10_fixed_mode_tokens_witness :
    (asciiB "x" ≠ asciiB ".git") ∧
    childEntryF 1 (.file (asciiB "x") 493 [1]) =
      some (asciiB "100644", asciiB "x", hashObject [1] (asciiB "blob")) :=
  ⟨by decide, c10_fixed_mode_tokens.2.2.1 1 (asciiB "x") 493 [1] (by decide)⟩

end RGit

